import Mathlib

/-!
Shallow embedding of the batch enrichment pipeline of
subsquid-labs/evm-ipfs-example (src/main.ts).

JS `Map` objects are embedded as insertion-ordered association lists with
string keys (`alGet`/`alSet` mirror `Map.get`/`Map.set`: setting an existing
key updates it in place, setting a fresh key appends it).  Entities are plain
Lean structures; object mutation is embedded by re-`alSet`ting the updated
value at the same key.  `bigint` token indices are embedded as `Nat` (the
source only ever converts them with `toString` and passes them around).
-/

/-- JS `Map.get`: first binding of the key, if any. -/
def alGet {α : Type} : List (String × α) → String → Option α
  | [], _ => none
  | (k, v) :: rest, k' => if k = k' then some v else alGet rest k'

/-- JS `Map.set`: update the existing binding in place, else append. -/
def alSet {α : Type} : List (String × α) → String → α → List (String × α)
  | [], k, v => [(k, v)]
  | (k0, v0) :: rest, k, v =>
    if k0 = k then (k, v) :: rest else (k0, v0) :: alSet rest k v

/-- Key list of an association-list map, in insertion order. -/
def alKeys {α : Type} (m : List (String × α)) : List String := m.map Prod.fst

/-- Decoded ERC-721 Transfer event (interface TransferEvent, main.ts lines
34-41; the block / transaction objects are flattened to the fields the
pipeline reads: height, timestamp, hash). -/
structure TransferEvent where
  id : String
  blockNumber : Nat
  timestamp : Nat
  txHash : String
  «from» : String
  «to» : String
  tokenIndex : Nat
deriving DecidableEq

/-- Owner entity (model/generated): keyed by address, no other state. -/
structure Owner where
  id : String
deriving DecidableEq

/-- Attribute value object (model/generated). -/
structure Attribute where
  traitType : String
  value : String
deriving DecidableEq

/-- Token entity (model/generated).  The owner reference is embedded by
value; `Owner` carries only its id, so this is faithful. -/
structure Token where
  id : String
  index : Nat
  owner : Option Owner := none
  uri : Option String := none
  image : Option String := none
  attributes : Option (List Attribute) := none
deriving DecidableEq

/-- Transfer entity (model/generated).  The token reference is embedded by
its id; the entity rows themselves are not the subject of any claim. -/
structure Transfer where
  id : String
  blockNumber : Nat
  timestamp : Nat
  txHash : String
  «from» : Owner
  «to» : Owner
  token : String
deriving DecidableEq

/-- JS `Set.add` on an insertion-ordered string set. -/
def addToSet (s : List String) (x : String) : List String :=
  if x ∈ s then s else s ++ [x]

/-- The `tokensIds` set collected by processTransfers (main.ts lines 64-71). -/
def tokensIds (l : List TransferEvent) : List String :=
  l.foldl (fun s td => addToSet s (toString td.tokenIndex)) []

/-- The `ownersIds` set collected by processTransfers (main.ts lines 64-71). -/
def ownersIds (l : List TransferEvent) : List String :=
  l.foldl (fun s td => addToSet (addToSet s td.«from») td.«to») []

/-- Storage lookup `ctx.store.findBy(E, {id: In(ids)})`: the rows whose id is
among the requested ids. -/
def findByIds {α : Type} (getId : α → String) (rows : List α) (ids : List String) : List α :=
  rows.filter (fun r => getId r ∈ ids)

/-- Building `new Map(q.map((i) => [i.id, i]))` from a row list. -/
def toEntityMap {α : Type} (getId : α → String) (q : List α) : List (String × α) :=
  q.foldl (fun m x => alSet m (getId x) x) []

/-- State threaded through the processTransfers loop (main.ts lines 73-118).
`createdOwners` is a ghost history of the owner entities constructed this
batch (the source records the analogous token history in `newTokens`); it is
write-only and does not influence the computed maps. -/
structure ResolveState where
  owners : List (String × Owner)
  tokens : List (String × Token)
  newTokens : List Token
  transfers : List Transfer
  createdOwners : List String
deriving DecidableEq

/-- Lines 80-90: look an owner up in the batch map, constructing and
registering a fresh entity when absent.  Returns the updated map, the
updated ghost creation log and the resolved entity. -/
def getOrCreateOwner (m : List (String × Owner)) (log : List String) (a : String) :
    List (String × Owner) × List String × Owner :=
  match alGet m a with
  | some o => (m, log, o)
  | none => (alSet m a ⟨a⟩, log ++ [a], ⟨a⟩)

/-- One iteration of the processTransfers loop (main.ts lines 79-118):
resolve `from`/`to` owners, resolve or create the token, reassign its owner
to `to`, and record the Transfer row. -/
def processTransferData (st : ResolveState) (td : TransferEvent) : ResolveState :=
  let r1 := getOrCreateOwner st.owners st.createdOwners td.«from»
  let r2 := getOrCreateOwner r1.1 r1.2.1 td.«to»
  let toO := r2.2.2
  let tokenId := toString td.tokenIndex
  let r3 : List (String × Token) × List Token × Token :=
    match alGet st.tokens tokenId with
    | some tk => (st.tokens, st.newTokens, tk)
    | none =>
      let tk : Token := { id := tokenId, index := td.tokenIndex }
      (alSet st.tokens tokenId tk, st.newTokens ++ [tk], tk)
  let token := { r3.2.2 with owner := some toO }
  { owners := r2.1
    tokens := alSet r3.1 tokenId token
    newTokens := r3.2.1
    transfers := st.transfers ++
      [{ id := td.id, blockNumber := td.blockNumber, timestamp := td.timestamp,
         txHash := td.txHash, «from» := r1.2.2, «to» := toO, token := tokenId }]
    createdOwners := r2.2.1 }

/-- The owner map loaded from storage before the loop (main.ts line 76). -/
def initialOwners (sO : List Owner) (l : List TransferEvent) : List (String × Owner) :=
  toEntityMap Owner.id (findByIds Owner.id sO (ownersIds l))

/-- The token map loaded from storage before the loop (main.ts line 75). -/
def initialTokens (sT : List Token) (l : List TransferEvent) : List (String × Token) :=
  toEntityMap Token.id (findByIds Token.id sT (tokensIds l))

/-- The entity-resolution pass of processTransfers (main.ts lines 63-118),
parameterized by the storage contents `sO`/`sT`. -/
def processTransfers (sO : List Owner) (sT : List Token) (l : List TransferEvent) :
    ResolveState :=
  l.foldl processTransferData
    { owners := initialOwners sO l
      tokens := initialTokens sT l
      newTokens := []
      transfers := []
      createdOwners := [] }

/-- The last transfer of the list referencing the given token id, if any. -/
def lastRef (l : List TransferEvent) (tid : String) : Option TransferEvent :=
  (l.filter (fun td => toString td.tokenIndex = tid)).getLast?

/-- The list references the address as a `from` or `to` owner. -/
def referencesOwner (l : List TransferEvent) (a : String) : Prop :=
  ∃ td ∈ l, td.«from» = a ∨ td.«to» = a

/-- The list references the token id (string form of a transferred index). -/
def referencesToken (l : List TransferEvent) (tid : String) : Prop :=
  ∃ td ∈ l, toString td.tokenIndex = tid

instance (l : List TransferEvent) (a : String) : Decidable (referencesOwner l a) := by
  unfold referencesOwner; infer_instance

instance (l : List TransferEvent) (tid : String) : Decidable (referencesToken l tid) := by
  unfold referencesToken; infer_instance

/-- Constant MUTLTICALL_BATCH_SIZE (main.ts line 11; the source spells it
with the transposed letters). -/
def MUTLTICALL_BATCH_SIZE : Nat := 50

/-- Constant MAX_IPFS_REQ_SEC (main.ts line 16). -/
def MAX_IPFS_REQ_SEC : Nat := 25

/-- Constant IPFS_GATEWAY (main.ts line 18). -/
def IPFS_GATEWAY : String := "https://ipfs.io"

/-- The generator splitIntoBatches (main.ts lines 204-215), written as the
equivalent recursion on `list.slice(offset)`.  The source while loop never
terminates when `maxBatchSize = 0` and the list is longer than that; the
second branch gives that unreachable case (every claim assumes
`maxBatchSize ≥ 1`) an arbitrary total value. -/
def splitIntoBatches {α : Type} (list : List α) (maxBatchSize : Nat) : List (List α) :=
  if list.length ≤ maxBatchSize then [list]
  else if _h : maxBatchSize = 0 then [list]
  else (list.take maxBatchSize) :: splitIntoBatches (list.drop maxBatchSize) maxBatchSize
termination_by list.length
decreasing_by
  simp only [List.length_drop]
  omega

/-- Modelled from the spec: `Multicall.aggregate` lives in src/abi/multicall,
which is not part of the provided sources.  Per the spec (section 4.2) it
partitions the argument tuples into consecutive chunks of at most
`maxBatchSize`, issues one aggregated call per chunk and concatenates the
decoded results in input order; the chunking is the source file's
splitIntoBatches and the per-argument decoded result is abstracted as the
oracle `call`. -/
def multicallAggregate {α β : Type} (call : α → β) (args : List α) (maxBatchSize : Nat) :
    List β :=
  ((splitIntoBatches args maxBatchSize).map (fun chunk => chunk.map call)).flatten

/-- JS `String.prototype.startsWith`, embedded on the character lists. -/
def strStartsWith (s pre : String) : Bool := pre.data.isPrefixOf s.data

/-- JS `String.prototype.endsWith`, embedded on the character lists. -/
def strEndsWith (s suf : String) : Bool := suf.data.isSuffixOf s.data

/-- One step of Node path.posix.normalize segment processing: drop empty and
"." segments, resolve ".." against the reversed accumulator (keeping leading
".." segments only for relative paths). -/
def normStep (allowAbove : Bool) (acc : List String) (seg : String) : List String :=
  if seg = "" || seg = "." then acc
  else if seg = ".." then
    match acc with
    | [] => if allowAbove then [".."] else []
    | a :: rest => if a = ".." then seg :: acc else rest
  else seg :: acc

/-- Split a character list at every slash, keeping empty segments, as JS
`p.split(sep)` does (the accumulator carries the current segment reversed). -/
def splitSlashAux : List Char → List Char → List String → List String
  | [], cur, acc => acc ++ [String.mk cur.reverse]
  | c :: cs, cur, acc =>
    if c = '/' then splitSlashAux cs [] (acc ++ [String.mk cur.reverse])
    else splitSlashAux cs (c :: cur) acc

/-- The segments of a path between its slashes. -/
def splitSlash (p : String) : List String := splitSlashAux p.data [] []

/-- Node `path.posix.normalize`: collapse repeated separators, resolve "."
and "..", preserve a leading "/" and a trailing "/". -/
def posixNormalize (p : String) : String :=
  if p = "" then "."
  else
    let isAbs := strStartsWith p "/"
    let trailing := strEndsWith p "/"
    let segs := ((splitSlash p).foldl (normStep !isAbs) []).reverse
    let core := String.intercalate "/" segs
    if core = "" then
      if isAbs then "/" else if trailing then "./" else "."
    else
      let withTrail := if trailing then core ++ "/" else core
      if isAbs then "/" ++ withTrail else withTrail

/-- Node `path.posix.join`: drop empty parts, join the rest with "/", then
normalize ("." when every part is empty). -/
def posixJoin (parts : List String) : String :=
  let nonempty := parts.filter (fun s => s ≠ "")
  if nonempty = [] then "." else posixNormalize (String.intercalate "/" nonempty)

/-- The JS regular expression `ipfsRegExp = /^ipfs:\/\/(.+)$/` applied with
`.exec(uri)`, returning capture group 1.  Without flags, `.` matches every
character except the four line terminators, and `$` anchors at the end of
the input. -/
def ipfsRegExpExec (uri : String) : Option String :=
  let rest := uri.drop 7
  if strStartsWith uri "ipfs://" && rest.length != 0 &&
      rest.data.all (fun c => !(c = '\n' || c = '\r' || c = '\u2028' || c = '\u2029')) then
    some rest
  else none

/-- The gateway URL built for an ipfs URI (main.ts line 180):
`path.posix.join(IPFS_GATEWAY, ipfsRegExp.exec(uri)![1])`. -/
def ipfsGatewayURL (gateway content : String) : String :=
  posixJoin [gateway, content]

/-- Raw attribute entry of a fetched metadata document. -/
structure RawAttribute where
  trait_type : String
  value : String
deriving DecidableEq

/-- A fetched metadata document.  The HTTP client hands back whatever JSON
the gateway served, so both fields the pipeline reads are modelled as
possibly absent. -/
structure RawMetadata where
  image : Option String := none
  attributes : Option (List RawAttribute) := none
deriving DecidableEq

/-- The error message wrapper of fetchTokenMetadata's catch block
(main.ts line 193). -/
def wrapFetchError (uri e : String) : String :=
  "failed to fetch metadata at " ++ uri ++ ". Error: " ++ e

/-- fetchTokenMetadata (main.ts lines 177-195).  The HTTP transport is the
oracle `http`, mapping a URL to the parsed document or to a failure string
(network error, non-2xx status, unparseable body).  An exception anywhere in
the try block is re-thrown wrapped with the offending URI; an unsupported
scheme returns `undefined` (here `none`) after only a log line. -/
def fetchTokenMetadata (gateway : String) (http : String → Except String RawMetadata)
    (uri : String) : Except String (Option RawMetadata) :=
  if strStartsWith uri "ipfs://" then
    match ipfsRegExpExec uri with
    | some content =>
      match http (ipfsGatewayURL gateway content) with
      | Except.ok res => Except.ok (some res)
      | Except.error e => Except.error (wrapFetchError uri e)
    | none => Except.error (wrapFetchError uri "TypeError: regex did not match")
  else if strStartsWith uri "http://" || strStartsWith uri "https://" then
    match http uri with
    | Except.ok res => Except.ok (some res)
    | Except.error e => Except.error (wrapFetchError uri e)
  else
    Except.ok none

/-- One rate-limit group of fetches joined with `Promise.all` (main.ts lines
140-147): the join resolves to the per-item results in order, or rejects as
soon as some item rejects. -/
def fetchBatchAll (gateway : String) (http : String → Except String RawMetadata) :
    List String → Except String (List (Option RawMetadata))
  | [] => Except.ok []
  | uri :: rest =>
    match fetchTokenMetadata gateway http uri with
    | Except.error e => Except.error e
    | Except.ok md =>
      match fetchBatchAll gateway http rest with
      | Except.error e => Except.error e
      | Except.ok mds => Except.ok (md :: mds)

/-- The group loop of initTokens (main.ts lines 138-149): groups are awaited
strictly in order and their results concatenated; a rejected group rejects
the whole loop. -/
def fetchGroups (gateway : String) (http : String → Except String RawMetadata) :
    List (List String) → Except String (List (Option RawMetadata))
  | [] => Except.ok []
  | batch :: rest =>
    match fetchBatchAll gateway http batch with
    | Except.error e => Except.error e
    | Except.ok m =>
      match fetchGroups gateway http rest with
      | Except.error e => Except.error e
      | Except.ok ms => Except.ok (m ++ ms)

/-- The whole metadata-collection phase of initTokens over the URI list. -/
def fetchAllMetadata (gateway : String) (http : String → Except String RawMetadata)
    (uris : List String) : Except String (List (Option RawMetadata)) :=
  fetchGroups gateway http (splitIntoBatches uris MAX_IPFS_REQ_SEC)

/-- Nat ceiling division, the value of JS `Math.ceil(a / b)` on the exact
rationals the source feeds it. -/
def ceilDiv (a b : Nat) : Nat := (a + b - 1) / b

/-- One issued fetch in the timing model: its URI, its index within its
rate-limit group, the instant (ms) its HTTP request is issued after its
stagger sleep, and the instant its promise resolves. -/
structure FetchEvent where
  uri : String
  index : Nat
  start : Nat
  finish : Nat
deriving DecidableEq

/-- The fetch events of one rate-limit group started at instant `t`
(main.ts lines 141-146): item `k` sleeps `Math.ceil(1000 * (k + 1) / r)` ms
and then fetches, taking `dur` ms to resolve. -/
def groupEvents (r : Nat) (dur : String → Nat) (t : Nat) (batch : List String) :
    List FetchEvent :=
  batch.enum.map fun p =>
    { uri := p.2, index := p.1,
      start := t + ceilDiv (1000 * (p.1 + 1)) r,
      finish := t + ceilDiv (1000 * (p.1 + 1)) r + dur p.2 }

/-- The instant the group's `Promise.all` join resolves: when every item of
the group has finished (at least the group's start for an empty group). -/
def groupEnd (t : Nat) (evs : List FetchEvent) : Nat :=
  evs.foldl (fun m e => Nat.max m e.finish) t

/-- The timing of the sequential group loop (main.ts lines 139-149): each
group's events are issued from the instant the previous group's join
resolved.  Produces each group's start instant with its events. -/
def scheduleGroups (r : Nat) (dur : String → Nat) :
    Nat → List (List String) → List (Nat × List FetchEvent)
  | _, [] => []
  | t, batch :: rest =>
    let evs := groupEvents r dur t batch
    (t, evs) :: scheduleGroups r dur (groupEnd t evs) rest

/-- The full fetch schedule of initTokens for a URI list, under fetch
durations `dur`. -/
def ipfsSchedule (dur : String → Nat) (uris : List String) :
    List (Nat × List FetchEvent) :=
  scheduleGroups MAX_IPFS_REQ_SEC dur 0 (splitIntoBatches uris MAX_IPFS_REQ_SEC)

/-- The assignment `tokens[i].uri = ...; tokens[i].image = ...;
tokens[i].attributes = ...` of one loop iteration (main.ts lines 152-160).
JS evaluation order: the uri and image fields are written first; the
optional chain `metadatas[i]?.attributes` yields `undefined` only when the
whole document is `undefined`, so `.map` on a present document with an
absent `attributes` field throws a TypeError. -/
def setTokenMeta (tk : Token) (uri : Option String) (md : Option RawMetadata) :
    Except String Token :=
  let tk1 := { tk with uri := uri, image := md.bind RawMetadata.image }
  match md with
  | none => Except.ok { tk1 with attributes := none }
  | some d =>
    match d.attributes with
    | none => Except.error "TypeError: cannot read map of undefined"
    | some attrs =>
      let converted := attrs.map fun a => { traitType := a.trait_type, value := a.value : Attribute }
      Except.ok { tk1 with attributes := some converted }

/-- The indexed merge loop of initTokens (main.ts lines 151-161).  Indexing
past the end of a JS array yields `undefined`, hence the `[i]?` reads. -/
def initTokensMergeGo (uris : List String) (mds : List (Option RawMetadata)) :
    Nat → List Token → Except String (List Token)
  | _, [] => Except.ok []
  | i, tk :: tks =>
    match setTokenMeta tk uris[i]? (match mds[i]? with | some m => m | none => none) with
    | Except.error e => Except.error e
    | Except.ok tk1 =>
      match initTokensMergeGo uris mds (i + 1) tks with
      | Except.error e => Except.error e
      | Except.ok rest => Except.ok (tk1 :: rest)

/-- The merge loop of initTokens over the whole token list. -/
def initTokensMerge (tokens : List Token) (uris : List String)
    (mds : List (Option RawMetadata)) : Except String (List Token) :=
  initTokensMergeGo uris mds 0 tokens

/-! Helper lemmas about the JS-Map embedding. -/

theorem alGet_alSet_self {α : Type} (m : List (String × α)) (k : String) (v : α) :
    alGet (alSet m k v) k = some v := by
  induction m with
  | nil => simp [alGet, alSet]
  | cons p rest ih =>
    obtain ⟨k0, v0⟩ := p
    by_cases h : k0 = k
    · simp [alGet, alSet, h]
    · simp [alGet, alSet, h, ih]

theorem alGet_alSet_ne {α : Type} (m : List (String × α)) (k k' : String) (v : α)
    (h : k' ≠ k) : alGet (alSet m k v) k' = alGet m k' := by
  induction m with
  | nil =>
    simp only [alSet, alGet]
    rw [if_neg (fun hh => h hh.symm)]
  | cons p rest ih =>
    obtain ⟨k0, v0⟩ := p
    by_cases h0 : k0 = k
    · subst h0
      simp only [alSet, if_pos rfl, alGet]
      rw [if_neg (fun hh => h hh.symm), if_neg (fun hh => h hh.symm)]
    · simp only [alSet, if_neg h0, alGet]
      by_cases h1 : k0 = k'
      · rw [if_pos h1, if_pos h1]
      · rw [if_neg h1, if_neg h1, ih]

theorem isSome_alGet_alSet {α : Type} (m : List (String × α)) (k k' : String) (v : α) :
    (alGet (alSet m k v) k').isSome ↔ (alGet m k').isSome ∨ k' = k := by
  by_cases h : k' = k
  · subst h; simp [alGet_alSet_self]
  · simp [alGet_alSet_ne m k k' v h, h]

theorem mem_alKeys_iff {α : Type} (m : List (String × α)) (k : String) :
    k ∈ alKeys m ↔ (alGet m k).isSome := by
  induction m with
  | nil => simp [alKeys, alGet]
  | cons p rest ih =>
    obtain ⟨k0, v0⟩ := p
    by_cases h : k0 = k
    · simp [alKeys, alGet, h]
    · simpa [alKeys, alGet, h, Ne.symm h] using ih

theorem alKeys_alSet_of_isSome {α : Type} (m : List (String × α)) (k : String) (v : α)
    (h : (alGet m k).isSome) : alKeys (alSet m k v) = alKeys m := by
  induction m with
  | nil => simp [alGet] at h
  | cons p rest ih =>
    obtain ⟨k0, v0⟩ := p
    by_cases h0 : k0 = k
    · simp [alKeys, alSet, h0]
    · simp only [alGet, h0, if_false] at h
      have h2 := ih h
      simp only [alKeys] at h2 ⊢
      simp [alSet, h0, h2]

theorem alKeys_alSet_of_none {α : Type} (m : List (String × α)) (k : String) (v : α)
    (h : alGet m k = none) : alKeys (alSet m k v) = alKeys m ++ [k] := by
  induction m with
  | nil => simp [alKeys, alSet]
  | cons p rest ih =>
    obtain ⟨k0, v0⟩ := p
    by_cases h0 : k0 = k
    · simp [alGet, h0] at h
    · simp only [alGet, h0, if_false] at h
      have h2 := ih h
      simp only [alKeys] at h2 ⊢
      simp [alSet, h0, h2]

theorem nodup_alKeys_alSet {α : Type} (m : List (String × α)) (k : String) (v : α)
    (h : (alKeys m).Nodup) : (alKeys (alSet m k v)).Nodup := by
  cases hs : alGet m k with
  | some w =>
    rw [alKeys_alSet_of_isSome m k v (by simp [hs])]
    exact h
  | none =>
    rw [alKeys_alSet_of_none m k v hs]
    refine List.Nodup.append h (List.nodup_singleton k) ?_
    intro x hx hx1
    simp at hx1
    subst hx1
    rw [mem_alKeys_iff, hs] at hx
    simp at hx

theorem alGet_alSet_cases {α : Type} (m : List (String × α)) (k k' : String) (v w : α)
    (h : alGet (alSet m k v) k' = some w) : (k' = k ∧ w = v) ∨ alGet m k' = some w := by
  by_cases hk : k' = k
  · subst hk
    rw [alGet_alSet_self] at h
    exact Or.inl ⟨rfl, (Option.some_inj.mp h).symm⟩
  · rw [alGet_alSet_ne m k k' v hk] at h
    exact Or.inr h

/-! Lemmas about the entity maps built from storage rows. -/

theorem alGet_foldl_alSet_id {α : Type} (f : α → String) (q : List α)
    (m : List (String × α)) (hm : ∀ k v, alGet m k = some v → f v = k) :
    ∀ k v, alGet (q.foldl (fun m x => alSet m (f x) x) m) k = some v → f v = k := by
  induction q generalizing m with
  | nil => exact hm
  | cons x rest ih =>
    refine ih (alSet m (f x) x) ?_
    intro k v h
    rcases alGet_alSet_cases m (f x) k x v h with ⟨hk, hv⟩ | hold
    · rw [hv, hk]
    · exact hm k v hold

theorem alGet_toEntityMap_id {α : Type} (f : α → String) (q : List α) (k : String) (v : α)
    (h : alGet (toEntityMap f q) k = some v) : f v = k := by
  exact alGet_foldl_alSet_id f q [] (by intro k v hh; simp [alGet] at hh) k v h

theorem isSome_alGet_foldl_alSet {α : Type} (f : α → String) (q : List α)
    (m : List (String × α)) (k : String) :
    (alGet (q.foldl (fun m x => alSet m (f x) x) m) k).isSome ↔
      (alGet m k).isSome ∨ ∃ x ∈ q, f x = k := by
  induction q generalizing m with
  | nil => simp
  | cons x rest ih =>
    rw [List.foldl_cons, ih (alSet m (f x) x)]
    rw [isSome_alGet_alSet]
    constructor
    · rintro ((h | h) | ⟨y, hy, hfy⟩)
      · exact Or.inl h
      · exact Or.inr ⟨x, by simp, h.symm⟩
      · exact Or.inr ⟨y, by simp [hy], hfy⟩
    · rintro (h | ⟨y, hy, hfy⟩)
      · exact Or.inl (Or.inl h)
      · rcases List.mem_cons.mp hy with rfl | hy2
        · exact Or.inl (Or.inr hfy.symm)
        · exact Or.inr ⟨y, hy2, hfy⟩

theorem isSome_alGet_toEntityMap {α : Type} (f : α → String) (q : List α) (k : String) :
    (alGet (toEntityMap f q) k).isSome ↔ ∃ x ∈ q, f x = k := by
  rw [toEntityMap, isSome_alGet_foldl_alSet]
  simp [alGet]

theorem nodup_alKeys_foldl_alSet {α : Type} (f : α → String) (q : List α)
    (m : List (String × α)) (hm : (alKeys m).Nodup) :
    (alKeys (q.foldl (fun m x => alSet m (f x) x) m)).Nodup := by
  induction q generalizing m with
  | nil => exact hm
  | cons x rest ih => exact ih (alSet m (f x) x) (nodup_alKeys_alSet m (f x) x hm)

theorem nodup_alKeys_toEntityMap {α : Type} (f : α → String) (q : List α) :
    (alKeys (toEntityMap f q)).Nodup := by
  exact nodup_alKeys_foldl_alSet f q [] (by simp [alKeys])

/-! Lemmas about the id sets collected before the loop. -/

theorem mem_addToSet (s : List String) (x y : String) :
    y ∈ addToSet s x ↔ y ∈ s ∨ y = x := by
  unfold addToSet
  by_cases h : x ∈ s
  · simp only [h, if_true]
    constructor
    · exact Or.inl
    · rintro (hy | rfl)
      · exact hy
      · exact h
  · simp [h]

theorem mem_foldl_ownersIds (l : List TransferEvent) (s : List String) (a : String) :
    a ∈ l.foldl (fun s td => addToSet (addToSet s td.«from») td.«to») s ↔
      a ∈ s ∨ referencesOwner l a := by
  induction l generalizing s with
  | nil => simp [referencesOwner]
  | cons t rest ih =>
    rw [List.foldl_cons, ih, mem_addToSet, mem_addToSet]
    unfold referencesOwner
    simp only [List.mem_cons]
    constructor
    · rintro (((h | h) | h) | ⟨td, htd, hor⟩)
      · exact Or.inl h
      · exact Or.inr ⟨t, Or.inl rfl, Or.inl h.symm⟩
      · exact Or.inr ⟨t, Or.inl rfl, Or.inr h.symm⟩
      · exact Or.inr ⟨td, Or.inr htd, hor⟩
    · rintro (h | ⟨td, rfl | htd, hor⟩)
      · exact Or.inl (Or.inl (Or.inl h))
      · rcases hor with h | h
        · exact Or.inl (Or.inl (Or.inr h.symm))
        · exact Or.inl (Or.inr h.symm)
      · exact Or.inr ⟨td, htd, hor⟩

theorem mem_ownersIds (l : List TransferEvent) (a : String) :
    a ∈ ownersIds l ↔ referencesOwner l a := by
  rw [ownersIds, mem_foldl_ownersIds]
  simp

theorem mem_foldl_tokensIds (l : List TransferEvent) (s : List String) (tid : String) :
    tid ∈ l.foldl (fun s td => addToSet s (toString td.tokenIndex)) s ↔
      tid ∈ s ∨ referencesToken l tid := by
  induction l generalizing s with
  | nil => simp [referencesToken]
  | cons t rest ih =>
    rw [List.foldl_cons, ih, mem_addToSet]
    unfold referencesToken
    simp only [List.mem_cons]
    constructor
    · rintro ((h | h) | ⟨td, htd, hh⟩)
      · exact Or.inl h
      · exact Or.inr ⟨t, Or.inl rfl, h.symm⟩
      · exact Or.inr ⟨td, Or.inr htd, hh⟩
    · rintro (h | ⟨td, rfl | htd, hh⟩)
      · exact Or.inl (Or.inl h)
      · exact Or.inl (Or.inr hh.symm)
      · exact Or.inr ⟨td, htd, hh⟩

theorem mem_tokensIds (l : List TransferEvent) (tid : String) :
    tid ∈ tokensIds l ↔ referencesToken l tid := by
  rw [tokensIds, mem_foldl_tokensIds]
  simp

/-! Well-formedness of the owner map: every value is keyed by its own id.
The source guarantees this because storage rows are keyed by `i.id` and
fresh owners are constructed as `new Owner({id: key})`. -/

def OwnersWF (m : List (String × Owner)) : Prop :=
  ∀ k o, alGet m k = some o → o.id = k

theorem owner_eq_of_id (o : Owner) (a : String) (h : o.id = a) : o = ⟨a⟩ := by
  cases o
  cases h
  rfl

theorem ownersWF_initialOwners (sO : List Owner) (l : List TransferEvent) :
    OwnersWF (initialOwners sO l) := by
  intro k o h
  exact alGet_toEntityMap_id Owner.id _ k o h

theorem getOrCreateOwner_wf (m : List (String × Owner)) (log : List String) (a : String)
    (h : OwnersWF m) : OwnersWF (getOrCreateOwner m log a).1 := by
  unfold getOrCreateOwner
  cases hg : alGet m a with
  | some o => exact h
  | none =>
    intro k o hk
    rcases alGet_alSet_cases m a k ⟨a⟩ o hk with ⟨rfl, rfl⟩ | hold
    · rfl
    · exact h k o hold

theorem getOrCreateOwner_id (m : List (String × Owner)) (log : List String) (a : String)
    (h : OwnersWF m) : (getOrCreateOwner m log a).2.2.id = a := by
  unfold getOrCreateOwner
  cases hg : alGet m a with
  | some o => exact h a o hg
  | none => rfl

theorem isSome_getOrCreateOwner (m : List (String × Owner)) (log : List String)
    (a k : String) :
    (alGet (getOrCreateOwner m log a).1 k).isSome ↔ (alGet m k).isSome ∨ k = a := by
  unfold getOrCreateOwner
  cases hg : alGet m a with
  | some o =>
    simp only
    constructor
    · exact Or.inl
    · rintro (h | rfl)
      · exact h
      · simp [hg]
  | none =>
    simp only
    exact isSome_alGet_alSet m a k ⟨a⟩

theorem getOrCreateOwner_log_mem (m : List (String × Owner)) (log : List String)
    (a x : String) (h : x ∈ (getOrCreateOwner m log a).2.1) :
    x ∈ log ∨ alGet m x = none := by
  unfold getOrCreateOwner at h
  cases hg : alGet m a with
  | some o =>
    rw [hg] at h
    exact Or.inl h
  | none =>
    rw [hg] at h
    simp only [List.mem_append, List.mem_singleton] at h
    rcases h with h | rfl
    · exact Or.inl h
    · exact Or.inr hg

theorem getOrCreateOwner_log_inv (m : List (String × Owner)) (log : List String)
    (a : String) (hn : log.Nodup) (hs : ∀ x ∈ log, (alGet m x).isSome) :
    (getOrCreateOwner m log a).2.1.Nodup ∧
      ∀ x ∈ (getOrCreateOwner m log a).2.1,
        (alGet (getOrCreateOwner m log a).1 x).isSome := by
  unfold getOrCreateOwner
  cases hg : alGet m a with
  | some o => exact ⟨hn, hs⟩
  | none =>
    simp only
    constructor
    · refine List.Nodup.append hn (List.nodup_singleton a) ?_
      intro x hx hx1
      simp only [List.mem_singleton] at hx1
      subst hx1
      have := hs x hx
      rw [hg] at this
      simp at this
    · intro x hx
      rw [isSome_alGet_alSet]
      simp only [List.mem_append, List.mem_singleton] at hx
      rcases hx with hx | rfl
      · exact Or.inl (hs x hx)
      · exact Or.inr rfl

theorem nodup_alKeys_getOrCreateOwner (m : List (String × Owner)) (log : List String)
    (a : String) (h : (alKeys m).Nodup) : (alKeys (getOrCreateOwner m log a).1).Nodup := by
  unfold getOrCreateOwner
  cases hg : alGet m a with
  | some o => exact h
  | none => exact nodup_alKeys_alSet m a ⟨a⟩ h

/-! Characterization of one loop iteration. -/

theorem step_owners_wf (st : ResolveState) (td : TransferEvent)
    (h : OwnersWF st.owners) : OwnersWF (processTransferData st td).owners := by
  unfold processTransferData
  exact getOrCreateOwner_wf _ _ _ (getOrCreateOwner_wf _ _ _ h)

theorem step_isSome_owners (st : ResolveState) (td : TransferEvent) (a : String) :
    (alGet (processTransferData st td).owners a).isSome ↔
      (alGet st.owners a).isSome ∨ a = td.«from» ∨ a = td.«to» := by
  unfold processTransferData
  simp only [isSome_getOrCreateOwner]
  tauto

theorem step_tokens_self (st : ResolveState) (td : TransferEvent)
    (h : OwnersWF st.owners) :
    ∃ tk, alGet (processTransferData st td).tokens (toString td.tokenIndex) = some tk ∧
      tk.owner = some ⟨td.«to»⟩ := by
  have hid : ((getOrCreateOwner (getOrCreateOwner st.owners st.createdOwners td.«from»).1
      (getOrCreateOwner st.owners st.createdOwners td.«from»).2.1 td.«to»).2.2) = ⟨td.«to»⟩ := by
    apply owner_eq_of_id
    exact getOrCreateOwner_id _ _ _ (getOrCreateOwner_wf _ _ _ h)
  unfold processTransferData
  cases h3 : alGet st.tokens (toString td.tokenIndex) with
  | some tk0 =>
    simp only [h3]
    exact ⟨_, alGet_alSet_self _ _ _, by rw [hid]⟩
  | none =>
    simp only [h3]
    exact ⟨_, alGet_alSet_self _ _ _, by rw [hid]⟩

theorem step_tokens_other (st : ResolveState) (td : TransferEvent) (tid : String)
    (h : tid ≠ toString td.tokenIndex) :
    alGet (processTransferData st td).tokens tid = alGet st.tokens tid := by
  unfold processTransferData
  cases h3 : alGet st.tokens (toString td.tokenIndex) with
  | some tk0 =>
    simp only [h3]
    exact alGet_alSet_ne _ _ _ _ h
  | none =>
    simp only [h3]
    rw [alGet_alSet_ne _ _ _ _ h, alGet_alSet_ne _ _ _ _ h]

theorem step_isSome_tokens (st : ResolveState) (td : TransferEvent) (tid : String) :
    (alGet (processTransferData st td).tokens tid).isSome ↔
      (alGet st.tokens tid).isSome ∨ tid = toString td.tokenIndex := by
  by_cases h : tid = toString td.tokenIndex
  · subst h
    unfold processTransferData
    cases h3 : alGet st.tokens (toString td.tokenIndex) <;> simp [h3, alGet_alSet_self]
  · rw [step_tokens_other st td tid h]
    simp [h]

theorem step_newTokens (st : ResolveState) (td : TransferEvent) :
    (processTransferData st td).newTokens =
      if (alGet st.tokens (toString td.tokenIndex)).isSome then st.newTokens
      else st.newTokens ++ [{ id := toString td.tokenIndex, index := td.tokenIndex }] := by
  unfold processTransferData
  cases h3 : alGet st.tokens (toString td.tokenIndex) <;> simp [h3]

theorem step_createdOwners (st : ResolveState) (td : TransferEvent) :
    (processTransferData st td).createdOwners =
      (getOrCreateOwner (getOrCreateOwner st.owners st.createdOwners td.«from»).1
        (getOrCreateOwner st.owners st.createdOwners td.«from»).2.1 td.«to»).2.1 := by
  unfold processTransferData
  cases h3 : alGet st.tokens (toString td.tokenIndex) <;> simp [h3]

/-! Properties of the whole resolution fold. -/

theorem referencesOwner_cons (t : TransferEvent) (l : List TransferEvent) (a : String) :
    referencesOwner (t :: l) a ↔ (t.«from» = a ∨ t.«to» = a) ∨ referencesOwner l a := by
  unfold referencesOwner
  constructor
  · rintro ⟨td, htd, hor⟩
    rcases List.mem_cons.mp htd with rfl | htd2
    · exact Or.inl hor
    · exact Or.inr ⟨td, htd2, hor⟩
  · rintro (hor | ⟨td, htd, hor⟩)
    · exact ⟨t, List.mem_cons_self t l, hor⟩
    · exact ⟨td, List.mem_cons_of_mem t htd, hor⟩

theorem referencesToken_cons (t : TransferEvent) (l : List TransferEvent) (tid : String) :
    referencesToken (t :: l) tid ↔ toString t.tokenIndex = tid ∨ referencesToken l tid := by
  unfold referencesToken
  constructor
  · rintro ⟨td, htd, hh⟩
    rcases List.mem_cons.mp htd with rfl | htd2
    · exact Or.inl hh
    · exact Or.inr ⟨td, htd2, hh⟩
  · rintro (hh | ⟨td, htd, hh⟩)
    · exact ⟨t, List.mem_cons_self t l, hh⟩
    · exact ⟨td, List.mem_cons_of_mem t htd, hh⟩

theorem foldl_owners_wf (l : List TransferEvent) (st : ResolveState)
    (h : OwnersWF st.owners) : OwnersWF ((l.foldl processTransferData st).owners) := by
  induction l generalizing st with
  | nil => exact h
  | cons t rest ih => exact ih (processTransferData st t) (step_owners_wf st t h)

theorem foldl_isSome_owners (l : List TransferEvent) (st : ResolveState) (a : String) :
    (alGet ((l.foldl processTransferData st).owners) a).isSome ↔
      (alGet st.owners a).isSome ∨ referencesOwner l a := by
  induction l generalizing st with
  | nil => simp [referencesOwner]
  | cons t rest ih =>
    rw [List.foldl_cons, ih, step_isSome_owners, referencesOwner_cons]
    constructor
    · rintro ((h | h | h) | h)
      · exact Or.inl h
      · exact Or.inr (Or.inl (Or.inl h.symm))
      · exact Or.inr (Or.inl (Or.inr h.symm))
      · exact Or.inr (Or.inr h)
    · rintro (h | (h | h) | h)
      · exact Or.inl (Or.inl h)
      · exact Or.inl (Or.inr (Or.inl h.symm))
      · exact Or.inl (Or.inr (Or.inr h.symm))
      · exact Or.inr h

theorem foldl_isSome_tokens (l : List TransferEvent) (st : ResolveState) (tid : String) :
    (alGet ((l.foldl processTransferData st).tokens) tid).isSome ↔
      (alGet st.tokens tid).isSome ∨ referencesToken l tid := by
  induction l generalizing st with
  | nil => simp [referencesToken]
  | cons t rest ih =>
    rw [List.foldl_cons, ih, step_isSome_tokens, referencesToken_cons]
    tauto

theorem lastRef_concat (l : List TransferEvent) (t : TransferEvent) (tid : String) :
    lastRef (l ++ [t]) tid =
      if toString t.tokenIndex = tid then some t else lastRef l tid := by
  unfold lastRef
  rw [List.filter_append]
  by_cases h : toString t.tokenIndex = tid
  · simp [h, List.getLast?_concat]
  · simp [h]

theorem lastRef_mem (l : List TransferEvent) (tid : String) (td : TransferEvent)
    (h : lastRef l tid = some td) : td ∈ l ∧ toString td.tokenIndex = tid := by
  unfold lastRef at h
  have h1 := List.mem_of_mem_getLast? h
  rw [List.mem_filter] at h1
  exact ⟨h1.1, by simpa using h1.2⟩

theorem foldl_tokens_owner (l : List TransferEvent) (st : ResolveState)
    (h : OwnersWF st.owners) (tid : String) (td : TransferEvent)
    (hl : lastRef l tid = some td) :
    ∃ tk, alGet ((l.foldl processTransferData st).tokens) tid = some tk ∧
      tk.owner = some ⟨td.«to»⟩ := by
  induction l using List.reverseRecOn generalizing td with
  | nil => simp [lastRef] at hl
  | append_singleton l t ih =>
    rw [List.foldl_append, List.foldl_cons, List.foldl_nil]
    rw [lastRef_concat] at hl
    by_cases hmatch : toString t.tokenIndex = tid
    · rw [if_pos hmatch] at hl
      have htd : t = td := by injection hl
      subst htd
      rcases step_tokens_self (l.foldl processTransferData st) t
          (foldl_owners_wf l st h) with ⟨tk, htk, hown⟩
      rw [hmatch] at htk
      exact ⟨tk, htk, hown⟩
    · rw [if_neg hmatch] at hl
      rw [step_tokens_other _ _ _ (fun hh => hmatch hh.symm)]
      exact ih td hl

theorem step_mono_tokens (st : ResolveState) (td : TransferEvent) (tid : String)
    (h : (alGet st.tokens tid).isSome) :
    (alGet (processTransferData st td).tokens tid).isSome := by
  rw [step_isSome_tokens]
  exact Or.inl h

theorem step_mono_owners (st : ResolveState) (td : TransferEvent) (a : String)
    (h : (alGet st.owners a).isSome) :
    (alGet (processTransferData st td).owners a).isSome := by
  rw [step_isSome_owners]
  exact Or.inl h

theorem foldl_newTokens_of_present (l : List TransferEvent) (st : ResolveState)
    (h : ∀ td ∈ l, (alGet st.tokens (toString td.tokenIndex)).isSome) :
    (l.foldl processTransferData st).newTokens = st.newTokens := by
  induction l generalizing st with
  | nil => rfl
  | cons t rest ih =>
    rw [List.foldl_cons]
    have h1 : (alGet st.tokens (toString t.tokenIndex)).isSome :=
      h t (List.mem_cons_self t rest)
    have h2 := step_newTokens st t
    rw [if_pos h1] at h2
    rw [ih (processTransferData st t)
      (fun td htd => step_mono_tokens st t _ (h td (List.mem_cons_of_mem t htd))), h2]

/-- Invariant tying the `newTokens` creation log to the token map: ids in the
log are distinct and all present in the map. -/
def TokenLogInv (st : ResolveState) : Prop :=
  (st.newTokens.map Token.id).Nodup ∧
    ∀ tk ∈ st.newTokens, (alGet st.tokens tk.id).isSome

theorem step_tokenLogInv (st : ResolveState) (td : TransferEvent)
    (h : TokenLogInv st) : TokenLogInv (processTransferData st td) := by
  obtain ⟨hn, hs⟩ := h
  unfold TokenLogInv
  rw [step_newTokens]
  by_cases hp : (alGet st.tokens (toString td.tokenIndex)).isSome
  · rw [if_pos hp]
    exact ⟨hn, fun tk htk => step_mono_tokens st td tk.id (hs tk htk)⟩
  · rw [if_neg hp]
    constructor
    · rw [List.map_append]
      refine List.Nodup.append hn (by simp) ?_
      intro x hx hx1
      simp only [List.map_cons, List.map_nil, List.mem_singleton] at hx1
      subst hx1
      rcases List.mem_map.mp hx with ⟨tk, htk, hid⟩
      exact hp (by rw [← hid]; exact hs tk htk)
    · intro tk htk
      rcases List.mem_append.mp htk with h1 | h1
      · exact step_mono_tokens st td tk.id (hs tk h1)
      · simp only [List.mem_singleton] at h1
        subst h1
        rw [step_isSome_tokens]
        exact Or.inr rfl

theorem foldl_tokenLogInv (l : List TransferEvent) (st : ResolveState)
    (h : TokenLogInv st) : TokenLogInv (l.foldl processTransferData st) := by
  induction l generalizing st with
  | nil => exact h
  | cons t rest ih => exact ih _ (step_tokenLogInv st t h)

theorem step_owners_eq (st : ResolveState) (td : TransferEvent) :
    (processTransferData st td).owners =
      (getOrCreateOwner (getOrCreateOwner st.owners st.createdOwners td.«from»).1
        (getOrCreateOwner st.owners st.createdOwners td.«from»).2.1 td.«to»).1 := by
  unfold processTransferData
  cases h3 : alGet st.tokens (toString td.tokenIndex) <;> simp [h3]

/-- Invariant tying the ghost `createdOwners` log to the owner map. -/
def OwnerLogInv (st : ResolveState) : Prop :=
  st.createdOwners.Nodup ∧ ∀ a ∈ st.createdOwners, (alGet st.owners a).isSome

theorem step_ownerLogInv (st : ResolveState) (td : TransferEvent)
    (h : OwnerLogInv st) : OwnerLogInv (processTransferData st td) := by
  unfold OwnerLogInv
  rw [step_owners_eq, step_createdOwners]
  have h1 := getOrCreateOwner_log_inv st.owners st.createdOwners td.«from» h.1 h.2
  exact getOrCreateOwner_log_inv _ _ td.«to» h1.1 h1.2

theorem foldl_ownerLogInv (l : List TransferEvent) (st : ResolveState)
    (h : OwnerLogInv st) : OwnerLogInv (l.foldl processTransferData st) := by
  induction l generalizing st with
  | nil => exact h
  | cons t rest ih => exact ih _ (step_ownerLogInv st t h)

theorem step_createdOwners_mem (st : ResolveState) (td : TransferEvent) (x : String)
    (h : x ∈ (processTransferData st td).createdOwners) :
    x ∈ st.createdOwners ∨ alGet st.owners x = none := by
  rw [step_createdOwners] at h
  rcases getOrCreateOwner_log_mem _ _ _ _ h with h1 | h1
  · rcases getOrCreateOwner_log_mem _ _ _ _ h1 with h2 | h2
    · exact Or.inl h2
    · exact Or.inr h2
  · right
    cases hg : alGet st.owners x with
    | none => rfl
    | some o =>
      have : (alGet (getOrCreateOwner st.owners st.createdOwners td.«from»).1 x).isSome := by
        rw [isSome_getOrCreateOwner]
        exact Or.inl (by simp [hg])
      rw [h1] at this
      simp at this

theorem foldl_createdOwners_mem (l : List TransferEvent) (st : ResolveState) (x : String)
    (h : x ∈ (l.foldl processTransferData st).createdOwners) :
    x ∈ st.createdOwners ∨ alGet st.owners x = none := by
  induction l generalizing st with
  | nil => exact Or.inl h
  | cons t rest ih =>
    rw [List.foldl_cons] at h
    rcases ih (processTransferData st t) h with h1 | h1
    · exact step_createdOwners_mem st t x h1
    · right
      cases hg : alGet st.owners x with
      | none => rfl
      | some o =>
        have := step_mono_owners st t x (by simp [hg])
        rw [h1] at this
        simp at this

theorem step_newTokens_mem (st : ResolveState) (td : TransferEvent) (tk : Token)
    (h : tk ∈ (processTransferData st td).newTokens) :
    tk ∈ st.newTokens ∨ alGet st.tokens tk.id = none := by
  rw [step_newTokens] at h
  by_cases hp : (alGet st.tokens (toString td.tokenIndex)).isSome
  · rw [if_pos hp] at h
    exact Or.inl h
  · rw [if_neg hp] at h
    rcases List.mem_append.mp h with h1 | h1
    · exact Or.inl h1
    · simp only [List.mem_singleton] at h1
      subst h1
      right
      simpa [Option.not_isSome_iff_eq_none] using hp

theorem foldl_newTokens_mem (l : List TransferEvent) (st : ResolveState) (tk : Token)
    (h : tk ∈ (l.foldl processTransferData st).newTokens) :
    tk ∈ st.newTokens ∨ alGet st.tokens tk.id = none := by
  induction l generalizing st with
  | nil => exact Or.inl h
  | cons t rest ih =>
    rw [List.foldl_cons] at h
    rcases ih (processTransferData st t) h with h1 | h1
    · exact step_newTokens_mem st t tk h1
    · right
      cases hg : alGet st.tokens tk.id with
      | none => rfl
      | some o =>
        have := step_mono_tokens st t tk.id (by simp [hg])
        rw [h1] at this
        simp at this

theorem step_nodup_alKeys_owners (st : ResolveState) (td : TransferEvent)
    (h : (alKeys st.owners).Nodup) :
    (alKeys (processTransferData st td).owners).Nodup := by
  rw [step_owners_eq]
  exact nodup_alKeys_getOrCreateOwner _ _ _ (nodup_alKeys_getOrCreateOwner _ _ _ h)

theorem step_nodup_alKeys_tokens (st : ResolveState) (td : TransferEvent)
    (h : (alKeys st.tokens).Nodup) :
    (alKeys (processTransferData st td).tokens).Nodup := by
  unfold processTransferData
  cases h3 : alGet st.tokens (toString td.tokenIndex) with
  | some tk0 =>
    simp only [h3]
    exact nodup_alKeys_alSet _ _ _ h
  | none =>
    simp only [h3]
    exact nodup_alKeys_alSet _ _ _ (nodup_alKeys_alSet _ _ _ h)

theorem foldl_nodup_alKeys_owners (l : List TransferEvent) (st : ResolveState)
    (h : (alKeys st.owners).Nodup) :
    (alKeys (l.foldl processTransferData st).owners).Nodup := by
  induction l generalizing st with
  | nil => exact h
  | cons t rest ih => exact ih _ (step_nodup_alKeys_owners st t h)

theorem foldl_nodup_alKeys_tokens (l : List TransferEvent) (st : ResolveState)
    (h : (alKeys st.tokens).Nodup) :
    (alKeys (l.foldl processTransferData st).tokens).Nodup := by
  induction l generalizing st with
  | nil => exact h
  | cons t rest ih => exact ih _ (step_nodup_alKeys_tokens st t h)

/-! Properties of splitIntoBatches. -/

theorem splitIntoBatches_flatten {α : Type} (l : List α) (m : Nat) :
    (splitIntoBatches l m).flatten = l := by
  induction l, m using splitIntoBatches.induct with
  | case1 l m h => rw [splitIntoBatches, if_pos h]; simp
  | case2 l h => rw [splitIntoBatches, if_neg h, dif_pos rfl]; simp
  | case3 l m h1 h2 ih =>
    rw [splitIntoBatches, if_neg h1, dif_neg h2]
    simp only [List.flatten_cons, ih]
    exact List.take_append_drop m l

theorem splitIntoBatches_length_le {α : Type} (l : List α) (m : Nat) (hm : 1 ≤ m) :
    ∀ b ∈ splitIntoBatches l m, b.length ≤ m := by
  induction l, m using splitIntoBatches.induct with
  | case1 l m h =>
    rw [splitIntoBatches, if_pos h]
    intro b hb
    simp only [List.mem_singleton] at hb
    subst hb
    exact h
  | case2 l h => omega
  | case3 l m h1 h2 ih =>
    rw [splitIntoBatches, if_neg h1, dif_neg h2]
    intro b hb
    rcases List.mem_cons.mp hb with rfl | hb2
    · simp
    · exact ih hm b hb2

theorem splitIntoBatches_dropLast {α : Type} (l : List α) (m : Nat) :
    ∀ b ∈ (splitIntoBatches l m).dropLast, b.length = m := by
  induction l, m using splitIntoBatches.induct with
  | case1 l m h => rw [splitIntoBatches, if_pos h]; simp
  | case2 l h => rw [splitIntoBatches, if_neg h, dif_pos rfl]; simp
  | case3 l m h1 h2 ih =>
    rw [splitIntoBatches, if_neg h1, dif_neg h2]
    intro b hb
    have hne : splitIntoBatches (List.drop m l) m ≠ [] := by
      rw [splitIntoBatches]
      split <;> simp
    rw [List.dropLast_cons_of_ne_nil hne] at hb
    rcases List.mem_cons.mp hb with rfl | hb2
    · rw [List.length_take]
      omega
    · exact ih b hb2

theorem multicallAggregate_eq_map {α β : Type} (call : α → β) (args : List α) (m : Nat) :
    multicallAggregate call args m = args.map call := by
  unfold multicallAggregate
  induction args, m using splitIntoBatches.induct with
  | case1 l m h => rw [splitIntoBatches, if_pos h]; simp
  | case2 l h => rw [splitIntoBatches, if_neg h, dif_pos rfl]; simp
  | case3 l m h1 h2 ih =>
    rw [splitIntoBatches, if_neg h1, dif_neg h2]
    simp only [List.map_cons, List.flatten_cons, ih]
    rw [← List.map_append, List.take_append_drop]

/-! Properties of the rate-limit fetch schedule. -/

theorem le_groupEnd (t : Nat) (evs : List FetchEvent) : t ≤ groupEnd t evs := by
  unfold groupEnd
  induction evs generalizing t with
  | nil => exact Nat.le_refl t
  | cons e rest ih =>
    exact Nat.le_trans (Nat.le_max_left t e.finish) (ih (Nat.max t e.finish))

theorem finish_le_groupEnd (t : Nat) (evs : List FetchEvent) (e : FetchEvent)
    (he : e ∈ evs) : e.finish ≤ groupEnd t evs := by
  unfold groupEnd
  induction evs generalizing t with
  | nil => cases he
  | cons f rest ih =>
    rcases List.mem_cons.mp he with rfl | he2
    · exact Nat.le_trans (Nat.le_max_right t e.finish)
        (le_groupEnd (Nat.max t e.finish) rest)
    · exact ih (Nat.max t f.finish) he2

theorem mem_groupEvents_start (r : Nat) (dur : String → Nat) (t : Nat)
    (batch : List String) (e : FetchEvent) (h : e ∈ groupEvents r dur t batch) :
    e.start = t + ceilDiv (1000 * (e.index + 1)) r := by
  unfold groupEvents at h
  rcases List.mem_map.mp h with ⟨p, _, rfl⟩
  rfl

theorem scheduleGroups_uris (r : Nat) (dur : String → Nat) (t : Nat)
    (bs : List (List String)) :
    (scheduleGroups r dur t bs).map (fun g => g.2.map FetchEvent.uri) = bs := by
  induction bs generalizing t with
  | nil => rfl
  | cons batch rest ih =>
    simp only [scheduleGroups, List.map_cons, ih]
    congr 1
    unfold groupEvents
    rw [List.map_map]
    exact List.enum_map_snd batch

theorem scheduleGroups_stagger (r : Nat) (dur : String → Nat) (t : Nat)
    (bs : List (List String)) :
    ∀ g ∈ scheduleGroups r dur t bs, ∀ e ∈ g.2,
      e.start = g.1 + ceilDiv (1000 * (e.index + 1)) r := by
  induction bs generalizing t with
  | nil => intro g hg; cases hg
  | cons batch rest ih =>
    intro g hg e he
    rcases List.mem_cons.mp hg with rfl | hg2
    · exact mem_groupEvents_start r dur t batch e he
    · exact ih _ g hg2 e he

theorem scheduleGroups_start_le (r : Nat) (dur : String → Nat) (t : Nat)
    (bs : List (List String)) :
    ∀ g ∈ scheduleGroups r dur t bs, ∀ e ∈ g.2, t ≤ e.start := by
  induction bs generalizing t with
  | nil => intro g hg; cases hg
  | cons batch rest ih =>
    intro g hg e he
    rcases List.mem_cons.mp hg with rfl | hg2
    · rw [mem_groupEvents_start r dur t batch e he]
      exact Nat.le_add_right t _
    · exact Nat.le_trans (le_groupEnd t (groupEvents r dur t batch))
        (ih (groupEnd t (groupEvents r dur t batch)) g hg2 e he)

theorem scheduleGroups_pairwise (r : Nat) (dur : String → Nat) (t : Nat)
    (bs : List (List String)) :
    List.Pairwise (fun g g' => ∀ e ∈ g.2, ∀ e' ∈ g'.2, e.finish ≤ e'.start)
      (scheduleGroups r dur t bs) := by
  induction bs generalizing t with
  | nil => constructor
  | cons batch rest ih =>
    simp only [scheduleGroups]
    constructor
    · intro g' hg' e he e' he'
      exact Nat.le_trans (finish_le_groupEnd t (groupEvents r dur t batch) e he)
        (scheduleGroups_start_le r dur _ rest g' hg' e' he')
    · exact ih _

/-! Failure propagation through the fetch pipeline. -/

theorem isPrefixOf_head_ne {c1 c2 : Char} (p1 p2 : List Char) (s : List Char)
    (hne : c1 ≠ c2) (h : (c1 :: p1).isPrefixOf s = true) :
    (c2 :: p2).isPrefixOf s = false := by
  cases s with
  | nil => simp [List.isPrefixOf] at h
  | cons c cs =>
    simp only [List.isPrefixOf, Bool.and_eq_true, beq_iff_eq] at h
    simp only [List.isPrefixOf, Bool.and_eq_false_iff, beq_eq_false_iff_ne]
    left
    rw [← h.1]
    exact fun hh => hne hh.symm

theorem strStartsWith_http_not_ipfs (s : String)
    (h : strStartsWith s "http://" = true ∨ strStartsWith s "https://" = true) :
    strStartsWith s "ipfs://" = false := by
  unfold strStartsWith at *
  have hi : "ipfs://".data = 'i' :: "pfs://".data := rfl
  rw [hi]
  rcases h with h | h
  · rw [show "http://".data = 'h' :: "ttp://".data from rfl] at h
    exact isPrefixOf_head_ne _ _ _ (by decide) h
  · rw [show "https://".data = 'h' :: "ttps://".data from rfl] at h
    exact isPrefixOf_head_ne _ _ _ (by decide) h

theorem fetchTokenMetadata_http_error (gateway : String)
    (http : String → Except String RawMetadata) (uri e : String)
    (hs : strStartsWith uri "http://" = true ∨ strStartsWith uri "https://" = true)
    (hf : http uri = Except.error e) :
    fetchTokenMetadata gateway http uri = Except.error (wrapFetchError uri e) := by
  unfold fetchTokenMetadata
  rw [strStartsWith_http_not_ipfs uri hs]
  have hor : (strStartsWith uri "http://" || strStartsWith uri "https://") = true := by
    rcases hs with h | h <;> simp [h]
  simp only [Bool.false_eq_true, if_false, hor, if_true, hf]

theorem fetchTokenMetadata_ipfs_error (gateway : String)
    (http : String → Except String RawMetadata) (uri e c : String)
    (h1 : strStartsWith uri "ipfs://" = true)
    (h2 : ipfsRegExpExec uri = some c)
    (hf : http (ipfsGatewayURL gateway c) = Except.error e) :
    fetchTokenMetadata gateway http uri = Except.error (wrapFetchError uri e) := by
  unfold fetchTokenMetadata
  simp only [h1, if_true, h2, hf]

theorem fetchBatchAll_error (gateway : String) (http : String → Except String RawMetadata)
    (batch : List String) (uri : String) (huri : uri ∈ batch) (e : String)
    (hf : fetchTokenMetadata gateway http uri = Except.error e) :
    ∃ msg, fetchBatchAll gateway http batch = Except.error msg := by
  induction batch with
  | nil => cases huri
  | cons u rest ih =>
    rcases List.mem_cons.mp huri with rfl | h2
    · exact ⟨e, by simp [fetchBatchAll, hf]⟩
    · cases hu : fetchTokenMetadata gateway http u with
      | error e2 => exact ⟨e2, by simp [fetchBatchAll, hu]⟩
      | ok md =>
        rcases ih h2 with ⟨msg, hmsg⟩
        exact ⟨msg, by simp [fetchBatchAll, hu, hmsg]⟩

theorem fetchGroups_error (gateway : String) (http : String → Except String RawMetadata)
    (bs : List (List String)) (batch : List String) (hb : batch ∈ bs)
    (he : ∃ e, fetchBatchAll gateway http batch = Except.error e) :
    ∃ msg, fetchGroups gateway http bs = Except.error msg := by
  induction bs with
  | nil => cases hb
  | cons b rest ih =>
    rcases List.mem_cons.mp hb with rfl | h2
    · rcases he with ⟨e, hke⟩
      exact ⟨e, by simp [fetchGroups, hke]⟩
    · cases hbb : fetchBatchAll gateway http b with
      | error e2 => exact ⟨e2, by simp [fetchGroups, hbb]⟩
      | ok m =>
        rcases ih h2 with ⟨msg, hmsg⟩
        exact ⟨msg, by simp [fetchGroups, hbb, hmsg]⟩

theorem fetchAllMetadata_error (gateway : String)
    (http : String → Except String RawMetadata) (uris : List String) (uri : String)
    (huri : uri ∈ uris) (e : String)
    (hf : fetchTokenMetadata gateway http uri = Except.error e) :
    ∃ msg, fetchAllMetadata gateway http uris = Except.error msg := by
  have hmem : uri ∈ (splitIntoBatches uris MAX_IPFS_REQ_SEC).flatten := by
    rw [splitIntoBatches_flatten]
    exact huri
  rcases List.mem_flatten.mp hmem with ⟨batch, hb, hub⟩
  exact fetchGroups_error gateway http _ batch hb
    (fetchBatchAll_error gateway http batch uri hub e hf)

/-! Properties of the merge loop. -/

theorem setTokenMeta_ok (tk : Token) (u : Option String) (md : Option RawMetadata)
    (tk1 : Token) (h : setTokenMeta tk u md = Except.ok tk1) :
    tk1.uri = u ∧ (md = none → tk1.image = none ∧ tk1.attributes = none) := by
  unfold setTokenMeta at h
  cases md with
  | none =>
    dsimp only at h
    injection h with h1
    subst h1
    exact ⟨rfl, fun _ => ⟨rfl, rfl⟩⟩
  | some d =>
    dsimp only at h
    cases hd : d.attributes with
    | none => rw [hd] at h; cases h
    | some attrs =>
      rw [hd] at h
      dsimp only at h
      injection h with h1
      subst h1
      exact ⟨rfl, fun hh => by simp at hh⟩

theorem initTokensMergeGo_spec (uris : List String) (mds : List (Option RawMetadata)) :
    ∀ (tks : List Token) (i : Nat) (out : List Token),
      initTokensMergeGo uris mds i tks = Except.ok out →
      ∀ (j : Nat) (tk1 : Token), out[j]? = some tk1 →
        tk1.uri = uris[i + j]? ∧
        ((match mds[i + j]? with | some m => m | none => none) = none →
          tk1.image = none ∧ tk1.attributes = none) := by
  intro tks
  induction tks with
  | nil =>
    intro i out h j tk1 hj
    unfold initTokensMergeGo at h
    injection h with h1
    subst h1
    simp at hj
  | cons tk rest ih =>
    intro i out h j tk1 hj
    unfold initTokensMergeGo at h
    cases hset : setTokenMeta tk uris[i]? (match mds[i]? with | some m => m | none => none) with
    | error e => rw [hset] at h; cases h
    | ok tkh =>
      rw [hset] at h
      cases hrec : initTokensMergeGo uris mds (i + 1) rest with
      | error e => rw [hrec] at h; cases h
      | ok outr =>
        rw [hrec] at h
        injection h with h1
        subst h1
        cases j with
        | zero =>
          simp only [List.getElem?_cons_zero] at hj
          injection hj with hj1
          subst hj1
          simpa using setTokenMeta_ok tk _ _ tkh hset
        | succ j0 =>
          simp only [List.getElem?_cons_succ] at hj
          have := ih (i + 1) outr hrec j0 tk1 hj
          rwa [show i + 1 + j0 = i + (j0 + 1) by omega] at this

theorem splitIntoBatches_base {α : Type} (l : List α) (m : Nat) (h1 : l.length ≤ m) :
    splitIntoBatches l m = [l] := by
  rw [splitIntoBatches, if_pos h1]

theorem splitIntoBatches_step {α : Type} (l : List α) (m : Nat)
    (h1 : ¬ l.length ≤ m) (h2 : m ≠ 0) :
    splitIntoBatches l m = l.take m :: splitIntoBatches (l.drop m) m := by
  rw [splitIntoBatches, if_neg h1, dif_neg h2]

/-! Claim theorems. -/

/-- C1: after the entity-resolution pass, the token map entry of every token
referenced by the batch carries as owner exactly the Owner entity of the `to`
address of the last transfer (in arrival order) referencing that token, and
that entity is the one registered in the owner map — last-writer-wins even
when the token appears in several transfers of the batch. -/
theorem C1_owner_last_writer_wins (sO : List Owner) (sT : List Token)
    (l : List TransferEvent) (tid : String) (td : TransferEvent)
    (h : lastRef l tid = some td) :
    ∃ tk, alGet (processTransfers sO sT l).tokens tid = some tk ∧
      tk.owner = some ⟨td.«to»⟩ ∧
      alGet (processTransfers sO sT l).owners td.«to» = some ⟨td.«to»⟩ := by
  have hwf : OwnersWF (initialOwners sO l) := ownersWF_initialOwners sO l
  unfold processTransfers
  rcases foldl_tokens_owner l
      { owners := initialOwners sO l, tokens := initialTokens sT l,
        newTokens := [], transfers := [], createdOwners := [] }
      hwf tid td h with ⟨tk, htk, hown⟩
  refine ⟨tk, htk, hown, ?_⟩
  have hmem := lastRef_mem l tid td h
  have href : referencesOwner l td.«to» := ⟨td, hmem.1, Or.inr rfl⟩
  have hsome : (alGet (l.foldl processTransferData
      { owners := initialOwners sO l, tokens := initialTokens sT l,
        newTokens := [], transfers := [], createdOwners := [] }).owners td.«to»).isSome := by
    rw [foldl_isSome_owners]
    exact Or.inr href
  rcases Option.isSome_iff_exists.mp hsome with ⟨o, ho⟩
  have hid := foldl_owners_wf l _ hwf td.«to» o ho
  rw [owner_eq_of_id o _ hid] at ho
  exact ho

/-- Witness for C1: a two-transfer batch a→b then b→c on the same fresh
token 7 resolves the token owner to c. -/
theorem C1_witness :
    ∃ tk, alGet (processTransfers [] []
        [{ id := "1", blockNumber := 1, timestamp := 0, txHash := "h",
           «from» := "a", «to» := "b", tokenIndex := 7 },
         { id := "2", blockNumber := 1, timestamp := 0, txHash := "h",
           «from» := "b", «to» := "c", tokenIndex := 7 }]).tokens "7" = some tk ∧
      tk.owner = some ⟨"c"⟩ ∧
      alGet (processTransfers [] []
        [{ id := "1", blockNumber := 1, timestamp := 0, txHash := "h",
           «from» := "a", «to» := "b", tokenIndex := 7 },
         { id := "2", blockNumber := 1, timestamp := 0, txHash := "h",
           «from» := "b", «to» := "c", tokenIndex := 7 }]).owners "c" = some ⟨"c"⟩ :=
  C1_owner_last_writer_wins [] [] _ "7"
    { id := "2", blockNumber := 1, timestamp := 0, txHash := "h",
      «from» := "b", «to» := "c", tokenIndex := 7 } (by decide)

/-- C2: when every token referenced by the batch already exists in storage,
the resolution pass discovers no new token, so the enrichment phase receives
an empty token list and issues zero URI reads and zero metadata fetches; and
in every run the newly-discovered token list has pairwise distinct ids, so a
token appearing in several transfers of one batch is enriched at most once. -/
theorem C2_enrichment_only_new_tokens (sO : List Owner) (sT : List Token)
    (l : List TransferEvent)
    (h : ∀ td ∈ l, ∃ r ∈ sT, r.id = toString td.tokenIndex) :
    (processTransfers sO sT l).newTokens = [] ∧
    (∀ call : Nat → String,
      multicallAggregate call ((processTransfers sO sT l).newTokens.map Token.index)
        MUTLTICALL_BATCH_SIZE = []) ∧
    ∀ (sO2 : List Owner) (sT2 : List Token) (l2 : List TransferEvent),
      ((processTransfers sO2 sT2 l2).newTokens.map Token.id).Nodup := by
  have hpresent : ∀ td ∈ l,
      (alGet (initialTokens sT l) (toString td.tokenIndex)).isSome := by
    intro td htd
    rw [initialTokens, isSome_alGet_toEntityMap]
    rcases h td htd with ⟨r, hr, hrid⟩
    refine ⟨r, ?_, hrid⟩
    rw [findByIds, List.mem_filter]
    refine ⟨hr, ?_⟩
    simp only [decide_eq_true_eq]
    rw [hrid, mem_tokensIds]
    exact ⟨td, htd, rfl⟩
  have hnil : (processTransfers sO sT l).newTokens = [] := by
    unfold processTransfers
    exact foldl_newTokens_of_present l _ hpresent
  refine ⟨hnil, ?_, ?_⟩
  · intro call
    rw [hnil]
    rw [multicallAggregate_eq_map]
    rfl
  · intro sO2 sT2 l2
    have hinv : TokenLogInv (processTransfers sO2 sT2 l2) := by
      unfold processTransfers
      exact foldl_tokenLogInv l2 _ ⟨List.nodup_nil, by intro tk htk; cases htk⟩
    exact hinv.1

/-- Witness for C2: a batch referencing only the stored token 7 creates no
new token and aggregates zero URI calls. -/
theorem C2_witness :
    (∀ td ∈ [{ id := "1", blockNumber := 1, timestamp := 0, txHash := "h",
               «from» := "a", «to» := "b", tokenIndex := 7 : TransferEvent }],
      ∃ r ∈ [{ id := "7", index := 7 : Token }], r.id = toString td.tokenIndex) ∧
    ((processTransfers [] [{ id := "7", index := 7 }]
        [{ id := "1", blockNumber := 1, timestamp := 0, txHash := "h",
           «from» := "a", «to» := "b", tokenIndex := 7 }]).newTokens = [] ∧
      (∀ call : Nat → String,
        multicallAggregate call ((processTransfers [] [{ id := "7", index := 7 }]
            [{ id := "1", blockNumber := 1, timestamp := 0, txHash := "h",
               «from» := "a", «to» := "b", tokenIndex := 7 }]).newTokens.map Token.index)
          MUTLTICALL_BATCH_SIZE = []) ∧
      ∀ (sO2 : List Owner) (sT2 : List Token) (l2 : List TransferEvent),
        ((processTransfers sO2 sT2 l2).newTokens.map Token.id).Nodup) :=
  ⟨by decide, C2_enrichment_only_new_tokens [] [{ id := "7", index := 7 }] _ (by decide)⟩

/-- C3: the resolver's owner map holds exactly the distinct from/to
addresses referenced by the batch and its token map exactly the distinct
referenced token-index strings, each key once; the creation logs are
duplicate-free and only ever contain ids absent from the maps loaded from
storage, so repeated references to one id reuse the single entity
constructed or loaded for it. -/
theorem C3_resolver_maps_exact (sO : List Owner) (sT : List Token)
    (l : List TransferEvent) :
    (∀ a, (alGet (processTransfers sO sT l).owners a).isSome ↔ referencesOwner l a) ∧
    (∀ tid, (alGet (processTransfers sO sT l).tokens tid).isSome ↔ referencesToken l tid) ∧
    (alKeys (processTransfers sO sT l).owners).Nodup ∧
    (alKeys (processTransfers sO sT l).tokens).Nodup ∧
    (processTransfers sO sT l).createdOwners.Nodup ∧
    ((processTransfers sO sT l).newTokens.map Token.id).Nodup ∧
    (∀ a ∈ (processTransfers sO sT l).createdOwners,
      alGet (initialOwners sO l) a = none) ∧
    (∀ tk ∈ (processTransfers sO sT l).newTokens,
      alGet (initialTokens sT l) tk.id = none) := by
  have hinitO : ∀ a, (alGet (initialOwners sO l) a).isSome → referencesOwner l a := by
    intro a ha
    rw [initialOwners, isSome_alGet_toEntityMap] at ha
    rcases ha with ⟨o, ho, rfl⟩
    rw [findByIds, List.mem_filter] at ho
    have := ho.2
    simp only [decide_eq_true_eq] at this
    exact (mem_ownersIds l o.id).mp this
  have hinitT : ∀ tid, (alGet (initialTokens sT l) tid).isSome → referencesToken l tid := by
    intro tid ha
    rw [initialTokens, isSome_alGet_toEntityMap] at ha
    rcases ha with ⟨r, hr, rfl⟩
    rw [findByIds, List.mem_filter] at hr
    have := hr.2
    simp only [decide_eq_true_eq] at this
    exact (mem_tokensIds l r.id).mp this
  refine ⟨?_, ?_, ?_, ?_, ?_, ?_, ?_, ?_⟩
  · intro a
    unfold processTransfers
    rw [foldl_isSome_owners]
    constructor
    · rintro (h | h)
      · exact hinitO a h
      · exact h
    · exact Or.inr
  · intro tid
    unfold processTransfers
    rw [foldl_isSome_tokens]
    constructor
    · rintro (h | h)
      · exact hinitT tid h
      · exact h
    · exact Or.inr
  · unfold processTransfers
    exact foldl_nodup_alKeys_owners l _ (nodup_alKeys_toEntityMap Owner.id _)
  · unfold processTransfers
    exact foldl_nodup_alKeys_tokens l _ (nodup_alKeys_toEntityMap Token.id _)
  · unfold processTransfers
    exact (foldl_ownerLogInv l
      { owners := initialOwners sO l, tokens := initialTokens sT l,
        newTokens := [], transfers := [], createdOwners := [] }
      ⟨List.nodup_nil, by intro a ha; cases ha⟩).1
  · unfold processTransfers
    exact (foldl_tokenLogInv l
      { owners := initialOwners sO l, tokens := initialTokens sT l,
        newTokens := [], transfers := [], createdOwners := [] }
      ⟨List.nodup_nil, by intro tk htk; cases htk⟩).1
  · intro a ha
    unfold processTransfers at ha
    rcases foldl_createdOwners_mem l _ a ha with h1 | h1
    · cases h1
    · exact h1
  · intro tk htk
    unfold processTransfers at htk
    rcases foldl_newTokens_mem l _ tk htk with h1 | h1
    · cases h1
    · exact h1

/-- C4: splitIntoBatches partitions any list into consecutive chunks of at
most maxBatchSize elements whose concatenation restores the list, every
chunk but the last being full; in particular a 12-element list with
maxBatchSize 5 yields chunks of sizes 5, 5, 2. -/
theorem C4_splitIntoBatches_partition {α : Type} (l : List α) (m : Nat)
    (hm : 1 ≤ m) :
    (splitIntoBatches l m).flatten = l ∧
    (∀ c ∈ splitIntoBatches l m, c.length ≤ m) ∧
    (∀ c ∈ (splitIntoBatches l m).dropLast, c.length = m) ∧
    (splitIntoBatches (List.range 12) 5).map List.length = [5, 5, 2] := by
  refine ⟨splitIntoBatches_flatten l m, splitIntoBatches_length_le l m hm,
    splitIntoBatches_dropLast l m, ?_⟩
  rw [splitIntoBatches_step _ _ (by decide) (by decide),
      splitIntoBatches_step _ _ (by decide) (by decide),
      splitIntoBatches_base _ _ (by decide)]
  decide

/-- Witness for C4 at the 12-element, maxBatchSize-5 scenario. -/
theorem C4_witness :
    1 ≤ 5 ∧
    ((splitIntoBatches (List.range 12) 5).flatten = List.range 12 ∧
      (∀ c ∈ splitIntoBatches (List.range 12) 5, c.length ≤ 5) ∧
      (∀ c ∈ (splitIntoBatches (List.range 12) 5).dropLast, c.length = 5) ∧
      (splitIntoBatches (List.range 12) 5).map List.length = [5, 5, 2]) :=
  ⟨by decide, C4_splitIntoBatches_partition (List.range 12) 5 (by decide)⟩

/-- C5 counterexample: the code builds the gateway URL with
path.posix.join, whose normalization collapses the double slash after the
scheme, so the URI ipfs://Qm123 with gateway base https://gw.example/ipfs/
is fetched from https:/gw.example/ipfs/Qm123 and not from the claimed
https://gw.example/ipfs/Qm123 (the oracle echoes the URL it was asked for
into the returned document, exposing the fetched URL). -/
theorem C5_counterexample :
    fetchTokenMetadata "https://gw.example/ipfs/"
        (fun url => Except.ok { image := some url, attributes := some [] })
        "ipfs://Qm123"
      = Except.ok (some { image := some "https:/gw.example/ipfs/Qm123",
                          attributes := some [] }) ∧
    ipfsGatewayURL "https://gw.example/ipfs/" "Qm123" = "https:/gw.example/ipfs/Qm123" ∧
    "https:/gw.example/ipfs/Qm123" ≠ "https://gw.example/ipfs/Qm123" := by
  refine ⟨rfl, rfl, by decide⟩

/-- C5 (amended): for the URI ipfs://Qm123 and gateway base
https://gw.example/ipfs/, the fetcher rewrites the URI with
path.posix.join(base, content path), which collapses repeated slashes
including the one after the scheme, and issues the HTTP request to
https:/gw.example/ipfs/Qm123 (a single slash after the scheme), wrapping a
transport failure with the original URI. -/
theorem C5_gateway_url_posix_join (http : String → Except String RawMetadata) :
    fetchTokenMetadata "https://gw.example/ipfs/" http "ipfs://Qm123" =
      (match http "https:/gw.example/ipfs/Qm123" with
        | Except.ok res => Except.ok (some res)
        | Except.error e => Except.error (wrapFetchError "ipfs://Qm123" e)) ∧
    ipfsGatewayURL "https://gw.example/ipfs/" "Qm123" = "https:/gw.example/ipfs/Qm123" := by
  refine ⟨?_, rfl⟩
  have h0 : fetchTokenMetadata "https://gw.example/ipfs/" http "ipfs://Qm123" =
      (match http (ipfsGatewayURL "https://gw.example/ipfs/" "Qm123") with
        | Except.ok res => Except.ok (some res)
        | Except.error e => Except.error (wrapFetchError "ipfs://Qm123" e)) := rfl
  rw [h0, show ipfsGatewayURL "https://gw.example/ipfs/" "Qm123"
        = "https:/gw.example/ipfs/Qm123" from rfl]

/-- C6: the fetcher chops the URI list into consecutive groups of at most
MAX_IPFS_REQ_SEC items covering the list in order; in the timing model of
the group loop, the K-th item of a group starts exactly
ceil(1000 * (K + 1) / MAX_IPFS_REQ_SEC) ms after its group's start, and
every fetch of a later group starts no earlier than every fetch of an
earlier group finishes (groups are awaited to completion sequentially). -/
theorem C6_staggered_sequential_groups (dur : String → Nat) (uris : List String) :
    ((ipfsSchedule dur uris).map (fun g => g.2.map FetchEvent.uri)) =
        splitIntoBatches uris MAX_IPFS_REQ_SEC ∧
    (splitIntoBatches uris MAX_IPFS_REQ_SEC).flatten = uris ∧
    (∀ b ∈ splitIntoBatches uris MAX_IPFS_REQ_SEC, b.length ≤ MAX_IPFS_REQ_SEC) ∧
    (∀ g ∈ ipfsSchedule dur uris, ∀ e ∈ g.2,
      e.start = g.1 + ceilDiv (1000 * (e.index + 1)) MAX_IPFS_REQ_SEC) ∧
    List.Pairwise (fun g g' => ∀ e ∈ g.2, ∀ e' ∈ g'.2, e.finish ≤ e'.start)
      (ipfsSchedule dur uris) :=
  ⟨scheduleGroups_uris MAX_IPFS_REQ_SEC dur 0 _,
   splitIntoBatches_flatten uris MAX_IPFS_REQ_SEC,
   splitIntoBatches_length_le uris MAX_IPFS_REQ_SEC (by decide),
   scheduleGroups_stagger MAX_IPFS_REQ_SEC dur 0 _,
   scheduleGroups_pairwise MAX_IPFS_REQ_SEC dur 0 _⟩

/-- C7: a URI with a scheme other than ipfs, http or https makes
fetchTokenMetadata return the absent document without raising, and merging
an absent document onto a token leaves image and attributes unset (only the
uri field, written unconditionally, changes). -/
theorem C7_unsupported_scheme_skipped (gateway : String)
    (http : String → Except String RawMetadata) (uri : String)
    (h1 : strStartsWith uri "ipfs://" = false)
    (h2 : strStartsWith uri "http://" = false)
    (h3 : strStartsWith uri "https://" = false) :
    fetchTokenMetadata gateway http uri = Except.ok none ∧
    ∀ (tk : Token) (u : Option String),
      setTokenMeta tk u none =
        Except.ok { tk with uri := u, image := none, attributes := none } := by
  constructor
  · unfold fetchTokenMetadata
    rw [h1, h2, h3]
    simp
  · intro tk u
    rfl

/-- Witness for C7 at the URI ftp://x. -/
theorem C7_witness :
    (strStartsWith "ftp://x" "ipfs://" = false ∧
      strStartsWith "ftp://x" "http://" = false ∧
      strStartsWith "ftp://x" "https://" = false) ∧
    (fetchTokenMetadata "https://ipfs.io"
        (fun _ => Except.error "unreachable") "ftp://x" = Except.ok none ∧
      ∀ (tk : Token) (u : Option String),
        setTokenMeta tk u none =
          Except.ok { tk with uri := u, image := none, attributes := none }) :=
  ⟨⟨by decide, by decide, by decide⟩,
   C7_unsupported_scheme_skipped "https://ipfs.io" (fun _ => Except.error "unreachable")
     "ftp://x" (by decide) (by decide) (by decide)⟩

/-- C8: when the underlying fetch of a URI fails — the gateway request of
an ipfs URI or the direct request of an http/https URI — fetchTokenMetadata
re-throws an error embedding that URI, and one such failure anywhere in the
URI list makes the whole grouped fetch phase fail — no per-item recovery,
the remaining results of the group and batch are discarded. -/
theorem C8_fetch_failure_aborts_batch (gateway : String)
    (http : String → Except String RawMetadata) (uri e : String)
    (uris : List String)
    (hfail :
      (strStartsWith uri "ipfs://" = true ∧
        ∃ c, ipfsRegExpExec uri = some c ∧
          http (ipfsGatewayURL gateway c) = Except.error e) ∨
      ((strStartsWith uri "http://" = true ∨ strStartsWith uri "https://" = true) ∧
        http uri = Except.error e))
    (hm : uri ∈ uris) :
    (∃ p q : String, fetchTokenMetadata gateway http uri = Except.error (p ++ uri ++ q)) ∧
    ∃ msg, fetchAllMetadata gateway http uris = Except.error msg := by
  have hft : fetchTokenMetadata gateway http uri = Except.error (wrapFetchError uri e) := by
    rcases hfail with ⟨h1, c, h2, hf⟩ | ⟨hs, hf⟩
    · exact fetchTokenMetadata_ipfs_error gateway http uri e c h1 h2 hf
    · exact fetchTokenMetadata_http_error gateway http uri e hs hf
  constructor
  · refine ⟨"failed to fetch metadata at ", ". Error: " ++ e, ?_⟩
    rw [hft]
    unfold wrapFetchError
    rw [String.append_assoc]
  · exact fetchAllMetadata_error gateway http uris uri hm (wrapFetchError uri e) hft

/-- Witness for C8: a transport that always fails aborts a one-URI batch on
an ipfs URI, with the URI embedded in the error. -/
theorem C8_witness :
    ((strStartsWith "ipfs://Qm1" "ipfs://" = true ∧
        ∃ c, ipfsRegExpExec "ipfs://Qm1" = some c ∧
          (fun _ : String => (Except.error "boom" : Except String RawMetadata))
            (ipfsGatewayURL "https://ipfs.io" c) = Except.error "boom") ∧
      "ipfs://Qm1" ∈ ["ipfs://Qm1"]) ∧
    ((∃ p q : String, fetchTokenMetadata "https://ipfs.io"
        (fun _ => Except.error "boom") "ipfs://Qm1" = Except.error (p ++ "ipfs://Qm1" ++ q)) ∧
      ∃ msg, fetchAllMetadata "https://ipfs.io"
        (fun _ => Except.error "boom") ["ipfs://Qm1"] = Except.error msg) :=
  ⟨⟨⟨by decide, "Qm1", rfl, rfl⟩, by decide⟩,
   C8_fetch_failure_aborts_batch "https://ipfs.io" (fun _ => Except.error "boom")
     "ipfs://Qm1" "boom" ["ipfs://Qm1"]
     (Or.inl ⟨by decide, "Qm1", rfl, rfl⟩) (by decide)⟩

/-- C9: the claim holds for a missing image field (left unset, no
exception) but fails for a missing attributes field: the optional chain in
the merge loop guards only the whole document, so a successfully fetched
document without attributes makes the `.map` access throw a TypeError that
aborts the merge, instead of leaving the field unset. -/
theorem C9_missing_attributes_throws :
    initTokensMerge [{ id := "7", index := 7 }] ["u"]
        [some { image := some "img", attributes := none }]
      = Except.error "TypeError: cannot read map of undefined" ∧
    initTokensMerge [{ id := "7", index := 7 }] ["u"]
        [some { image := none, attributes := some [] }]
      = Except.ok [{ id := "7", index := 7, owner := none, uri := some "u",
                     image := none, attributes := some [] }] := by
  exact ⟨rfl, rfl⟩

/-- C10: whenever the merge loop completes, every output token's uri field
holds the positionally matching decoded multicall result — also at
positions whose metadata is absent (skipped scheme), where image and
attributes stay unset. -/
theorem C10_uri_always_assigned (call : Nat → String) (tokens : List Token)
    (mds : List (Option RawMetadata)) (out : List Token)
    (h : initTokensMerge tokens
        (multicallAggregate call (tokens.map Token.index) MUTLTICALL_BATCH_SIZE) mds
      = Except.ok out) :
    ∀ (i : Nat) (tk : Token), out[i]? = some tk →
      tk.uri = (multicallAggregate call (tokens.map Token.index)
                  MUTLTICALL_BATCH_SIZE)[i]? ∧
      (mds[i]? = some none → tk.image = none ∧ tk.attributes = none) := by
  intro i tk hi
  have hspec := initTokensMergeGo_spec
    (multicallAggregate call (tokens.map Token.index) MUTLTICALL_BATCH_SIZE)
    mds tokens 0 out h i tk hi
  simp only [Nat.zero_add] at hspec
  refine ⟨hspec.1, ?_⟩
  intro hmd
  refine hspec.2 ?_
  rw [hmd]

/-- Witness for C10: one fresh token, one decoded URI, one absent metadata
document; the merged token carries the URI while image and attributes stay
unset. -/
theorem C10_witness :
    initTokensMerge [{ id := "7", index := 7 }]
        (multicallAggregate (fun n => toString n)
          ([{ id := "7", index := 7 : Token }].map Token.index) MUTLTICALL_BATCH_SIZE)
        [none]
      = Except.ok [{ id := "7", index := 7, owner := none, uri := some "7",
                     image := none, attributes := none }] ∧
    ∀ (i : Nat) (tk : Token),
      [{ id := "7", index := 7, owner := none, uri := some "7",
         image := none, attributes := none : Token }][i]? = some tk →
      tk.uri = (multicallAggregate (fun n => toString n)
                  ([{ id := "7", index := 7 : Token }].map Token.index)
                  MUTLTICALL_BATCH_SIZE)[i]? ∧
      ([(none : Option RawMetadata)][i]? = some none →
        tk.image = none ∧ tk.attributes = none) :=
  ⟨by rw [multicallAggregate_eq_map]; rfl, C10_uri_always_assigned (fun n => toString n)
      [{ id := "7", index := 7 }] [none] _ (by rw [multicallAggregate_eq_map]; rfl)⟩
